/-
Verification of the STEADYWATCH QKD post-processing pipeline.

Shallow embedding of the classical post-processing code:
  * bit-vector utilities (`_bytes_to_bits` / `_bits_to_bytes`,
    identical in src/qkd/cascade_key_reconciliation.py and
    src/qkd/ldpc_error_correction.py);
  * the Cascade reconciliation engine
    (src/qkd/cascade_key_reconciliation.py);
  * the LDPC codec (src/qkd/ldpc_error_correction.py);
  * privacy amplification and error detection
    (src/core/qkd_protocol.py);
  * the network key-relay layer (src/qkd/network_qkd.py).

Bytes are modelled as `ℕ` (values < 256 where relevant), bit arrays as
`List ℕ` with entries in {0, 1}, numpy float log-likelihoods as exact
rationals parametrised by the `tanh`-like function used in the
check-node update, SHA-256 as an abstract 32-byte-output function, and
the `secrets.randbelow` draws as an explicit list of outcomes.
-/

import Mathlib

namespace SW

/-! ## Bit-vector utilities

`CascadeProtocol._bytes_to_bits` / `LDPCErrorCorrection._bytes_to_bits`:
for each byte, bits `(byte >> i) & 1` for `i = 0..7` (LSB first). -/

def byteBits (b : ℕ) : List ℕ := (List.range 8).map fun i => (b >>> i) &&& 1

def bytesToBits : List ℕ → List ℕ
  | [] => []
  | b :: rest => byteBits b ++ bytesToBits rest

/-- Inner loop of `_bits_to_bytes`: `byte |= bits[i + j] << j` for
`j = 0..7`, skipping out-of-range positions (modelled by `getD _ 0`,
since or-ing `0` is a no-op). -/
def byteFromBits (chunk : List ℕ) : ℕ :=
  (List.range 8).foldl (fun acc j => acc ||| ((chunk.getD j 0) <<< j)) 0

/-- Outer loop of `_bits_to_bytes`, one byte per 8-bit chunk.  The
first argument is recursion fuel: the loop runs at most `l.length`
iterations, and every caller passes at least that. -/
def bitsToBytesGo : ℕ → List ℕ → List ℕ
  | 0, _ => []
  | _, [] => []
  | fuel + 1, b :: rest => byteFromBits ((b :: rest).take 8) :: bitsToBytesGo fuel (rest.drop 7)

def bitsToBytes (l : List ℕ) : List ℕ := bitsToBytesGo l.length l

/-! ## Privacy amplification (`QKDProtocol.privacy_amplification`)

SHA-256 is modelled as an abstract function `h : List ℕ → List ℕ`
producing 32 bytes.  `counter.to_bytes(4, 'big')`: -/

def toBytes4BE (c : ℕ) : List ℕ :=
  [c / 2 ^ 24 % 256, c / 2 ^ 16 % 256, c / 2 ^ 8 % 256, c % 256]

/-- The `while len(output) < output_length` hash-chain loop.  Each
iteration appends one 32-byte digest; `fuel` bounds the iteration count
(the caller passes `output_length`, which always suffices). -/
def paLoop (h : List ℕ → List ℕ) (input : List ℕ) (outLen : ℕ) :
    ℕ → ℕ → List ℕ → List ℕ
  | 0, _, out => out
  | fuel + 1, counter, out =>
      if out.length < outLen then
        paLoop h input outLen fuel (counter + 1) (out ++ h (input ++ toBytes4BE counter))
      else out

def privacy_amplification (h : List ℕ → List ℕ) (raw_key : List ℕ)
    (output_length : ℕ) (seed : List ℕ) : List ℕ :=
  (paLoop h (seed ++ raw_key) output_length output_length 0 []).take output_length

/-! ## Error detection (`QKDProtocol.error_detection`)

The cryptographic draws `secrets.randbelow(max_samples)` are passed in
explicitly as `draws` (one entry per loop iteration); the code sorts
them, compares the addressed bits and divides the mismatch count by the
number of sampled indices. -/

/-- Stable ascending insertion (Python's `sorted` is a stable ascending
sort; on a fixed key, any two stable ascending sorts agree). -/
def insSorted (le : α → α → Bool) (x : α) : List α → List α
  | [] => [x]
  | y :: ys => if le y x then y :: insSorted le x ys else x :: y :: ys

def stableSort (le : α → α → Bool) (l : List α) : List α :=
  l.foldl (fun acc x => insSorted le x acc) []

def bitOfKey (key : List ℕ) (idx : ℕ) : ℕ :=
  (key.getD (idx / 8) 0 >>> (idx % 8)) &&& 1

def sampleIndices (draws : List ℕ) : List ℕ :=
  stableSort (fun a b => decide (a ≤ b)) draws

/-- `error_detection` body: returns the observed error rate.  The
in-loop `continue` guard skips indices whose byte offset falls outside
either key. -/
def error_detection (key_alice key_bob : List ℕ) (draws : List ℕ) : ℚ :=
  let sample := sampleIndices draws
  let errors := sample.countP fun idx =>
    decide (idx / 8 < key_alice.length ∧ idx / 8 < key_bob.length ∧
      bitOfKey key_alice idx ≠ bitOfKey key_bob idx)
  if sample = [] then 0 else (errors : ℚ) / sample.length

/-! ## Cascade reconciliation engine (`CascadeProtocol`) -/

def parity (l : List ℕ) : ℕ := l.sum % 2

/-- Predicate: a bit array (every entry 0 or 1). -/
def bits01 (l : List ℕ) : Prop := ∀ x ∈ l, x ≤ 1

/-- The `len(block) <= 4` branch of `_find_errors_in_block`: scan every
index, reporting positions that disagree and were not already
corrected. -/
def scanBlock : List ℕ → List ℕ → ℕ → List ℕ → List ℕ
  | x :: xs, y :: ys, off, corr =>
      (if x ≠ y ∧ off ∉ corr then [off] else []) ++ scanBlock xs ys (off + 1) corr
  | _, _, _, _ => []

/-- `CascadeProtocol._find_errors_in_block`, with recursion fuel: each
bisection halves the block, so `a.length` levels always suffice. -/
def findErrorsGo : ℕ → List ℕ → List ℕ → ℕ → List ℕ → List ℕ
  | 0, _, _, _, _ => []
  | fuel + 1, a, b, off, corr =>
      if a.length ≤ 4 then scanBlock a b off corr
      else if parity a = parity b then []
      else
        findErrorsGo fuel (a.take (a.length / 2)) (b.take (a.length / 2)) off corr ++
          findErrorsGo fuel (a.drop (a.length / 2)) (b.drop (a.length / 2))
            (off + a.length / 2) corr

def find_errors_in_block (a b : List ℕ) (off : ℕ) (corr : List ℕ) : List ℕ :=
  findErrorsGo a.length a b off corr

/-- All positions (absolute, starting at `off`) where the two blocks
disagree. -/
def diffPositions : List ℕ → List ℕ → ℕ → List ℕ
  | x :: xs, y :: ys, off => (if x ≠ y then [off] else []) ++ diffPositions xs ys (off + 1)
  | _, _, _ => []

/-- The error-correction loop of `_reconcile_pass`: flip Bob's bit at
each reported position not already in `corrected_bits`, collecting the
newly corrected set. -/
def correctBlock (bB : List ℕ) (errs : List ℕ) (off : ℕ) (corr : List ℕ) :
    List ℕ × List ℕ :=
  errs.foldl
    (fun acc pos =>
      if pos ∈ corr then acc
      else (acc.1.set (pos - off) (1 - acc.1.getD (pos - off) 0),
            if pos ∈ acc.2 then acc.2 else acc.2 ++ [pos]))
    (bB, [])

/-- `CascadeProtocol._reconcile_pass`, block by block, with recursion
fuel (one unit per block; `a.length` always suffices).  The block size
is `bsPred + 1` (the code guarantees a block size of at least 1 via
`max(1, ...)`).  Returns Bob's corrected bits and the newly corrected
positions. -/
def reconcilePassGo : ℕ → List ℕ → List ℕ → ℕ → ℕ → List ℕ → List ℕ × List ℕ
  | 0, _, b, _, _, _ => (b, [])
  | _, [], b, _, _, _ => (b, [])
  | fuel + 1, x :: xs, b, bsPred, off, corr =>
      let a := x :: xs
      let bs := bsPred + 1
      let blockRes :=
        if parity (a.take bs) ≠ parity (b.take bs) then
          correctBlock (b.take bs) (find_errors_in_block (a.take bs) (b.take bs) off corr)
            off corr
        else (b.take bs, [])
      let restRes := reconcilePassGo fuel (xs.drop bsPred) (b.drop bs) bsPred (off + bs) corr
      (blockRes.1 ++ restRes.1, blockRes.2 ++ restRes.2)

def reconcile_pass (a b : List ℕ) (bsPred off : ℕ) (corr : List ℕ) : List ℕ × List ℕ :=
  reconcilePassGo a.length a b bsPred off corr

/-- The `for pass_num in range(1, num_passes + 1)` loop of
`reconcile_keys`, with the early stop when a pass corrects nothing.
Returns Bob's final bits and the total number of errors corrected. -/
def run_passes (a : List ℕ) (blockSize0 : ℕ) :
    ℕ → ℕ → List ℕ → List ℕ → ℕ → List ℕ × ℕ
  | 0, _, b, _, total => (b, total)
  | rem + 1, passNum, b, corr, total =>
      let bs := max 1 (blockSize0 / 2 ^ (passNum - 1))
      let pr := reconcile_pass a b (bs - 1) 0 corr
      if pr.2.length = 0 then (pr.1, total)
      else run_passes a blockSize0 rem (passNum + 1) pr.1 (corr ++ pr.2) (total + pr.2.length)

/-- `np.sum(reconciled_alice != reconciled_bob)`. -/
def countDiffs : List ℕ → List ℕ → ℕ
  | x :: xs, y :: ys => (if x ≠ y then 1 else 0) + countDiffs xs ys
  | _, _ => 0

structure ReconMeta where
  total_errors_corrected : ℕ
  remaining_errors : ℕ
  keys_match : Bool
deriving DecidableEq

/-- `CascadeProtocol.reconcile_keys` on byte keys. -/
def reconcile_keys (key_alice key_bob : List ℕ) (block_size num_passes : ℕ) :
    List ℕ × List ℕ × ReconMeta :=
  let aAll := bytesToBits key_alice
  let bAll := bytesToBits key_bob
  let minLen := min aAll.length bAll.length
  let a := aAll.take minLen
  let b := bAll.take minLen
  let res := run_passes a block_size num_passes 1 b [] 0
  let remaining := countDiffs a res.1
  (bitsToBytes a, bitsToBytes res.1,
    ⟨res.2, remaining, decide (remaining = 0)⟩)

/-! ## LDPC codec (`LDPCCode`)

`n = k + m`.  `_generate_parity_check_matrix` builds `H = [Pᵀ | I_m]`
where row `i` of the sparse part has ones at the column set `pos i`
(the positions `np.random.choice(self.k, 3, replace=False)` picked —
the construction is parametrised by those random draws).  The decoder's
numpy float arithmetic is embedded over `ℚ`, parametrised by the
`np.tanh`-like function `t`. -/

def genH (k m : ℕ) (pos : Fin m → Finset (Fin k)) : Fin m → Fin (k + m) → ℕ :=
  fun i j =>
    if h : (j : ℕ) < k then (if ⟨(j : ℕ), h⟩ ∈ pos i then 1 else 0)
    else if (j : ℕ) = k + (i : ℕ) then 1 else 0

/-- Primary generator construction `G = [I_k | P]`,
`G[:, k:] = (H[:, :k]).T % 2` (lines 87-97). -/
def genGmain (k m : ℕ) (H : Fin m → Fin (k + m) → ℕ) : Fin k → Fin (k + m) → ℕ :=
  fun a j =>
    if h : (j : ℕ) < k then (if (j : ℕ) = (a : ℕ) then 1 else 0)
    else
      H ⟨(j : ℕ) - k, by have := j.isLt; omega⟩
          (Fin.castLE (Nat.le_add_right k m) a) % 2

/-- `_generate_generator_matrix` (lines 75-115): verify
`(G · Hᵀ) % 2 = 0`; on failure fall back to `H[:m, :k].T` when
`m ≤ k`, or to random bits `rnd` otherwise. -/
def genG (k m : ℕ) (H : Fin m → Fin (k + m) → ℕ) (rnd : Fin k → Fin m → ℕ) :
    Fin k → Fin (k + m) → ℕ :=
  if ∀ (a : Fin k) (i : Fin m), (∑ j, genGmain k m H a j * H i j) % 2 = 0 then
    genGmain k m H
  else fun a j =>
    if h : (j : ℕ) < k then (if (j : ℕ) = (a : ℕ) then 1 else 0)
    else if m ≤ k then
      H ⟨(j : ℕ) - k, by have := j.isLt; omega⟩
          (Fin.castLE (Nat.le_add_right k m) a) % 2
    else rnd a ⟨(j : ℕ) - k, by have := j.isLt; omega⟩

/-- `LDPCCode.encode`: `c = m · G (mod 2)`. -/
def encode (k m : ℕ) (G : Fin k → Fin (k + m) → ℕ) (msg : Fin k → ℕ) :
    Fin (k + m) → ℕ :=
  fun j => (∑ a, msg a * G a j) % 2

/-- numpy `% 2` on floats: `q - 2 * floor(q / 2)` (result has the sign
of the divisor). -/
def fmod2 (q : ℚ) : ℚ := q - 2 * ⌊q / 2⌋

/-- `_check_node_update` entry `(i, j)`: tanh-domain product over the
other participating bits, `0` when there are none (`if other_llrs:`). -/
def checkMsg (t : ℚ → ℚ) (k m : ℕ) (H : Fin m → Fin (k + m) → ℕ)
    (llrs : Fin (k + m) → ℚ) (i : Fin m) (j : Fin (k + m)) : ℚ :=
  if H i j = 1 then
    (if (Finset.univ.filter fun j' => j' ≠ j ∧ H i j' = 1).Nonempty then
      2 * ∏ j' in Finset.univ.filter (fun j' => j' ≠ j ∧ H i j' = 1), t (llrs j' / 2)
    else 0)
  else 0

/-- `_variable_node_update`: current value plus the sum of incoming
check messages. -/
def varUpdate (t : ℚ → ℚ) (k m : ℕ) (H : Fin m → Fin (k + m) → ℕ)
    (llrs : Fin (k + m) → ℚ) : Fin (k + m) → ℚ :=
  fun j => llrs j + ∑ i in Finset.univ.filter (fun i => H i j = 1), checkMsg t k m H llrs i j

/-- `(var_llrs < 0).astype(int)`. -/
def hardDec (n : ℕ) (llrs : Fin n → ℚ) : Fin n → ℕ :=
  fun j => if llrs j < 0 then 1 else 0

/-- The decoding loop of `LDPCCode.decode` (lines 154-175): one unit
of fuel per iteration (`max_iterations`); in-loop it tests
`(H @ var_llrs) % 2` on the real-valued likelihoods, after the loop it
tests the syndrome of the hard decision. -/
def decodeGo (t : ℚ → ℚ) (k m : ℕ) (H : Fin m → Fin (k + m) → ℕ) :
    ℕ → (Fin (k + m) → ℚ) → (Fin (k + m) → ℕ) × Bool
  | 0, llrs =>
      (hardDec (k + m) llrs,
        decide (∀ i, (∑ j, H i j * hardDec (k + m) llrs j) % 2 = 0))
  | fuel + 1, llrs =>
      let var := varUpdate t k m H llrs
      if ∀ i : Fin m, fmod2 (∑ j, (H i j : ℚ) * var j) = 0 then
        (hardDec (k + m) var, true)
      else decodeGo t k m H fuel var

/-- `LDPCCode.decode`: initialize the likelihoods from the received
bits, run the loop, return the first `k` entries of the hard
decision. -/
def decode (t : ℚ → ℚ) (k m : ℕ) (H : Fin m → Fin (k + m) → ℕ)
    (received : Fin (k + m) → ℕ) (maxIter : ℕ) : (Fin k → ℕ) × Bool :=
  let llrs : Fin (k + m) → ℚ := fun j => if received j = 0 then 1 else -1
  let res := decodeGo t k m H maxIter llrs
  (fun a => res.1 (Fin.castAdd m a), res.2)

/-- Concrete tiny code used for the C4 analysis: `k = 3`, `m = 1`,
sparse row = all three message columns, so `H = [1 1 1 1]`. -/
def pos3 : Fin 1 → Finset (Fin 3) := fun _ => Finset.univ

def H3 : Fin 1 → Fin (3 + 1) → ℕ := genH 3 1 pos3

/-- Likelihoods after initialization on the all-zero received word. -/
def llrs0 : Fin (3 + 1) → ℚ := fun _ => 1

/-- Sign function: a concrete computable stand-in for `np.tanh` with
the sign-preservation properties the decoder theorems assume. -/
def tSign : ℚ → ℚ := fun x => if 0 < x then 1 else if x < 0 then -1 else 0

def msg3 : Fin 3 → ℕ := ![1, 0, 1]

def rnd0 : Fin 3 → Fin 1 → ℕ := fun _ _ => 0

/-- A concrete `tanh` stand-in satisfying C4's sign facts
(`tanh(1/2) ≈ 0.462 ∈ (0, 1/2)`). -/
def tQuarter : ℚ → ℚ := fun _ => 1 / 4

/-! ## Network key-relay layer (`NetworkQKD`)

State-passing embedding of the mutable `NetworkQKD` instance: python
dicts become association lists (`setA` replaces in place or appends,
matching dict assignment), python sets become lists with
insert-if-absent, and the `networkx` graph becomes the edge list
(`nx.all_simple_paths` becomes a depth-limited DFS over it, in
adjacency insertion order).  The per-hop key derivation
(`_generate_hop_key`, SHA-256 or a nested QKD session) is the
parameter `hk`. -/

inductive NodeRole
  | src
  | dst
  | relay
  | trustedRelay
deriving DecidableEq

structure NetNode where
  node_id : String
  role : NodeRole
  neighbors : List String
  shared_secrets : List (String × List ℕ)
  keys : List (String × List ℕ)
deriving DecidableEq

structure NetPath where
  path : List String
  hops : ℕ
  trust_level : ℚ
  latency : ℚ
deriving DecidableEq

structure NetKey where
  key : List ℕ
  session_id : String
  source_node : String
  destination_node : String
  path : List String
  timestamp : ℕ
  ttl : ℕ
deriving DecidableEq

structure NetState where
  nodes : List (String × NetNode)
  edges : List (String × String × ℚ)
  path_cache : List ((String × String) × List NetPath)
  distributed_keys : List (String × NetKey)
deriving DecidableEq

/-- Association-list lookup (python dict read). -/
def lookupA {κ α : Type} [DecidableEq κ] : List (κ × α) → κ → Option α
  | [], _ => none
  | (k, v) :: rest, key => if k = key then some v else lookupA rest key

/-- Association-list write (python dict assignment: replace in place,
else append — insertion order preserved). -/
def setA {κ α : Type} [DecidableEq κ] : List (κ × α) → κ → α → List (κ × α)
  | [], key, v => [(key, v)]
  | (k, w) :: rest, key, v =>
      if k = key then (k, v) :: rest else (k, w) :: setA rest key v

/-- Python `set.add`. -/
def addIfAbsent (l : List String) (x : String) : List String :=
  if x ∈ l then l else l ++ [x]

def emptyState : NetState := ⟨[], [], [], []⟩

/-- `NetworkQKD.add_node`. -/
def add_node (st : NetState) (node_id : String) (role : NodeRole) : NetState :=
  { st with nodes := setA st.nodes node_id ⟨node_id, role, [], [], []⟩ }

/-- `nx.Graph.add_edge`: update attributes in place or append. -/
def setEdge : List (String × String × ℚ) → String → String → ℚ →
    List (String × String × ℚ)
  | [], a, b, lat => [(a, b, lat)]
  | (x, y, l) :: rest, a, b, lat =>
      if (x = a ∧ y = b) ∨ (x = b ∧ y = a) then (x, y, lat) :: rest
      else (x, y, l) :: setEdge rest a b lat

/-- `NetworkQKD.add_link`: `none` models the `ValueError` raised when
either node is missing. -/
def add_link (st : NetState) (n1 n2 : String) (secret : List ℕ) (lat : ℚ) :
    Option NetState :=
  match lookupA st.nodes n1, lookupA st.nodes n2 with
  | some node1, some node2 =>
      let node1' := { node1 with neighbors := addIfAbsent node1.neighbors n2,
                                 shared_secrets := setA node1.shared_secrets n2 secret }
      let node2' := { node2 with neighbors := addIfAbsent node2.neighbors n1,
                                 shared_secrets := setA node2.shared_secrets n1 secret }
      some { st with
        nodes := setA (setA st.nodes n1 node1') n2 node2',
        edges := setEdge st.edges n1 n2 lat }
  | _, _ => none

/-- Neighbors of `u` in edge insertion order (the `nx` adjacency
order). -/
def nbrsOf : List (String × String × ℚ) → String → List String
  | [], _ => []
  | (a, b, _) :: rest, u =>
      (if a = u then [b] else if b = u then [a] else []) ++ nbrsOf rest u

/-- `get_edge_data(u, v).get('latency', 1.0)`. -/
def edgeLatency : List (String × String × ℚ) → String → String → ℚ
  | [], _, _ => 1
  | (x, y, l) :: rest, a, b =>
      if (x = a ∧ y = b) ∨ (x = b ∧ y = a) then l else edgeLatency rest a b

/-- `nx.all_simple_paths(..., cutoff=max_hops)`: depth-first
enumeration of simple paths with at most `fuel` edges. -/
def simplePathsGo (edges : List (String × String × ℚ)) (target : String) :
    ℕ → String → List String → List (List String)
  | 0, cur, _ => if cur = target then [[cur]] else []
  | fuel + 1, cur, visited =>
      if cur = target then [[cur]]
      else
        (nbrsOf edges cur).foldr
          (fun v acc =>
            (if v ∈ visited then []
             else (simplePathsGo edges target fuel v (visited ++ [v])).map (cur :: ·)) ++ acc)
          []

/-- `_calculate_path_latency`. -/
def pathLatency (edges : List (String × String × ℚ)) : List String → ℚ
  | a :: b :: rest => edgeLatency edges a b + pathLatency edges (b :: rest)
  | _ => 0

/-- Trust multiplier of the intermediate nodes (`path[1:-1]`); a
missing node (a `KeyError` in python) contributes the ordinary-relay
factor. -/
def trustFold (nodes : List (String × NetNode)) : List String → ℚ
  | [] => 1
  | nid :: rest =>
      (match lookupA nodes nid with
       | some node => if node.role = NodeRole.trustedRelay then 9 / 10 else 7 / 10
       | none => 7 / 10) * trustFold nodes rest

/-- `_calculate_path_trust`. -/
def pathTrust (nodes : List (String × NetNode)) (p : List String) : ℚ :=
  if p.length = 2 then 1 else trustFold nodes ((p.drop 1).dropLast)

/-- Sort key `(-trust, latency, hops)`, ascending; python's `sort` is
stable, as is `stableSort`. -/
def pathLe (p q : NetPath) : Bool :=
  decide (q.trust_level < p.trust_level ∨ (q.trust_level = p.trust_level ∧
    (p.latency < q.latency ∨ (p.latency = q.latency ∧ p.hops ≤ q.hops))))

/-- `NetworkQKD.find_paths`: cache check, DFS enumeration, scoring,
sort, cache write. -/
def find_paths (st : NetState) (source_id destination_id : String)
    (max_hops : ℕ) : NetState × List NetPath :=
  if (lookupA st.nodes source_id).isNone ∨ (lookupA st.nodes destination_id).isNone then
    (st, [])
  else
    match lookupA st.path_cache (source_id, destination_id) with
    | some cached => (st, cached)
    | none =>
        let raw := simplePathsGo st.edges destination_id max_hops source_id [source_id]
        let paths := raw.map fun p =>
          NetPath.mk p (p.length - 1) (pathTrust st.nodes p) (pathLatency st.edges p)
        let sorted := stableSort pathLe paths
        ({ st with path_cache := setA st.path_cache (source_id, destination_id) sorted },
          sorted)

/-- `NetworkQKD._validate_path`, hop checks (`... in node1.neighbors`
and `has_shared_secret`); a missing node is modelled as failure. -/
def validateHops (nodes : List (String × NetNode)) : List String → Bool
  | a :: b :: rest =>
      (match lookupA nodes a with
       | some node1 =>
           decide (b ∈ node1.neighbors) && (lookupA node1.shared_secrets b).isSome
       | none => false)
      && validateHops nodes (b :: rest)
  | _ => true

def validate_path (st : NetState) (path : List String) : Bool :=
  if path.length < 2 then false else validateHops st.nodes path

/-- `key * (len(data) // len(key) + 1)`. -/
def repeatKey (key : List ℕ) : ℕ → List ℕ
  | 0 => []
  | n + 1 => key ++ repeatKey key n

/-- `_xor_encrypt` (`_xor_decrypt` is the same function). -/
def xorEncrypt (data key : List ℕ) : List ℕ :=
  (data.zip ((repeatKey key (data.length / key.length + 1)).take data.length)).map
    fun p => p.1 ^^^ p.2

/-- `_relay_key_along_path`: per hop, derive the hop key, XOR-mask,
store the masked key at the intermediate node, unmask at the next
node.  Always reports success, like the source. -/
def relayGo (sid : String) (hk : String → String → ℕ → List ℕ) :
    NetState → List String → ℕ → List ℕ → NetState
  | st, a :: b :: rest, i, current =>
      let hop_key := hk a b i
      let encrypted := xorEncrypt current hop_key
      let st' :=
        if rest = [] then st
        else
          { st with nodes :=
              match lookupA st.nodes b with
              | some nb => setA st.nodes b
                  { nb with keys := setA nb.keys (sid ++ "_encrypted") encrypted }
              | none => st.nodes }
      relayGo sid hk st' (b :: rest) (i + 1) (xorEncrypt encrypted hop_key)
  | st, _, _, _ => st

/-- `NetworkQKD.distribute_key` (the session id, generated from
`time.time()` when absent, is passed explicitly; `now` models
`int(time.time())`). -/
def distribute_key (st : NetState) (source_id destination_id : String)
    (key : List ℕ) (session_id : String) (preferred_path : Option (List String))
    (now ttl : ℕ) (hk : String → String → ℕ → List ℕ) :
    NetState × (Bool × Option NetKey × List String) :=
  if (lookupA st.nodes source_id).isNone ∨ (lookupA st.nodes destination_id).isNone then
    (st, (false, none, []))
  else
    let pathStep : NetState × Option (List String) :=
      match preferred_path with
      | some p => (st, some p)
      | none =>
          let fp := find_paths st source_id destination_id 5
          match fp.2 with
          | [] => (fp.1, none)
          | best :: _ => (fp.1, some best.path)
    match pathStep.2 with
    | none => (pathStep.1, (false, none, []))
    | some path =>
        if validate_path pathStep.1 path = false then (pathStep.1, (false, none, []))
        else
          let st2 := relayGo session_id hk pathStep.1 path 0 key
          let nk : NetKey :=
            ⟨key, session_id, source_id, destination_id, path, now, ttl⟩
          let st3 := { st2 with
            distributed_keys := setA st2.distributed_keys session_id nk,
            nodes :=
              match lookupA st2.nodes destination_id with
              | some nd => setA st2.nodes destination_id
                  { nd with keys := setA nd.keys session_id key }
              | none => st2.nodes }
          (st3, (true, some nk, path))

/-! ## Claim theorems: network layer -/

def hk0 : String → String → ℕ → List ℕ := fun _ _ _ => List.replicate 32 0

/-- Two isolated nodes: no path between them. -/
def stAB : NetState := add_node (add_node emptyState "A" .src) "B" .dst

/-- Three nodes; first only the direct link A—C exists. -/
def st3n : NetState :=
  add_node (add_node (add_node emptyState "A" .src) "B" .relay) "C" .dst

def stAC : NetState := (add_link st3n "A" "C" [9] 1).getD emptyState

/-- Path discovery before the topology mutation (fills the cache). -/
def step1 : NetState × List NetPath := find_paths stAC "A" "C" 5

/-- Topology after discovery: links A—B and B—C added, creating the
new path A—B—C.  Neither `add_link` nor `add_node` touches
`path_cache`. -/
def stMut : NetState :=
  (add_link ((add_link step1.1 "A" "B" [8] 1).getD emptyState) "B" "C" [7] 1).getD
    emptyState

/-! ## Lemmas and claim theorems -/

lemma bitsToBytesGo_fuel : ∀ (fuel fuel' : ℕ) (l : List ℕ),
    l.length ≤ fuel → l.length ≤ fuel' → bitsToBytesGo fuel l = bitsToBytesGo fuel' l := by
  intro fuel
  induction fuel with
  | zero =>
      intro fuel' l h _
      have : l = [] := List.eq_nil_of_length_eq_zero (by omega)
      subst this
      cases fuel' <;> rfl
  | succ n ih =>
      intro fuel' l h h'
      match l with
      | [] => cases fuel' <;> rfl
      | b :: rest =>
          match fuel' with
          | 0 => simp at h'
          | m + 1 =>
              simp only [bitsToBytesGo]
              rw [ih m (rest.drop 7) (by simp at h ⊢; omega) (by simp at h' ⊢; omega)]

lemma byteBits_length (b : ℕ) : (byteBits b).length = 8 := by
  simp [byteBits]

set_option maxRecDepth 4096 in
lemma byteFromBits_byteBits (b : Fin 256) : byteFromBits (byteBits b.val) = b.val := by
  revert b; decide

lemma bitsToBytes_chunk (l : List ℕ) (h : l ≠ []) :
    bitsToBytes l = byteFromBits (l.take 8) :: bitsToBytes (l.drop 8) := by
  match l with
  | [] => exact absurd rfl h
  | b :: rest =>
      show bitsToBytesGo (b :: rest).length (b :: rest) = _
      rw [show (b :: rest).length = rest.length + 1 from rfl]
      rw [bitsToBytesGo]
      rw [bitsToBytesGo_fuel rest.length (rest.drop 7).length (rest.drop 7)
        (by simp [List.length_drop]) (le_refl _)]
      rfl

lemma bytesToBits_length (d : List ℕ) : (bytesToBits d).length = 8 * d.length := by
  induction d with
  | nil => simp [bytesToBits]
  | cons b rest ih => simp [bytesToBits, byteBits_length, ih]; ring

lemma roundTrip (d : List ℕ) (hd : ∀ b ∈ d, b < 256) :
    bitsToBytes (bytesToBits d) = d := by
  induction d with
  | nil => rfl
  | cons b rest ih =>
      have hb : b < 256 := hd b (by simp)
      have hrest : ∀ x ∈ rest, x < 256 := fun x hx => hd x (by simp [hx])
      have hne : bytesToBits (b :: rest) ≠ [] := by
        simp only [bytesToBits]
        intro hcontra
        have := congrArg List.length hcontra
        simp [byteBits_length] at this
      rw [bitsToBytes_chunk _ hne]
      simp only [bytesToBits]
      rw [List.take_left' (byteBits_length b), List.drop_left' (byteBits_length b)]
      rw [ih hrest, byteFromBits_byteBits ⟨b, hb⟩]

lemma paLoop_length_ge (h : List ℕ → List ℕ) (hlen : ∀ x, (h x).length = 32)
    (input : List ℕ) (outLen : ℕ) :
    ∀ fuel counter out, outLen ≤ out.length + fuel →
      outLen ≤ (paLoop h input outLen fuel counter out).length := by
  intro fuel
  induction fuel with
  | zero => intro counter out hle; simpa [paLoop] using hle
  | succ n ih =>
      intro counter out hle
      by_cases hc : out.length < outLen
      · rw [paLoop, if_pos hc]
        apply ih
        simp [hlen]
        omega
      · rw [paLoop, if_neg hc]
        omega

lemma privacy_amplification_length (h : List ℕ → List ℕ)
    (hlen : ∀ x, (h x).length = 32) (raw_key : List ℕ)
    (output_length : ℕ) (seed : List ℕ) :
    (privacy_amplification h raw_key output_length seed).length = output_length := by
  unfold privacy_amplification
  rw [List.length_take]
  have := paLoop_length_ge h hlen (seed ++ raw_key) output_length
    output_length 0 [] (by simp)
  omega

lemma insSorted_length (le : α → α → Bool) (x : α) (l : List α) :
    (insSorted le x l).length = l.length + 1 := by
  induction l with
  | nil => simp [insSorted]
  | cons y ys ih =>
      by_cases h : le y x = true
      · simp [insSorted, h, ih]
      · simp [insSorted, h]

lemma insSorted_countP (le : α → α → Bool) (p : α → Bool) (x : α) (l : List α) :
    (insSorted le x l).countP p = l.countP p + (if p x then 1 else 0) := by
  induction l with
  | nil => simp [insSorted, List.countP_cons]
  | cons y ys ih =>
      by_cases h : le y x = true
      · simp only [insSorted, if_pos h, List.countP_cons, ih]; omega
      · simp only [insSorted, if_neg h, List.countP_cons]

lemma stableSort_length (le : α → α → Bool) (l : List α) :
    (stableSort le l).length = l.length := by
  suffices h : ∀ acc : List α,
      (l.foldl (fun acc x => insSorted le x acc) acc).length = acc.length + l.length by
    simpa using h []
  induction l with
  | nil => intro acc; simp
  | cons x xs ih =>
      intro acc
      rw [List.foldl_cons, ih, insSorted_length, List.length_cons]
      omega

lemma stableSort_countP (le : α → α → Bool) (p : α → Bool) (l : List α) :
    (stableSort le l).countP p = l.countP p := by
  suffices h : ∀ acc : List α,
      (l.foldl (fun acc x => insSorted le x acc) acc).countP p =
        acc.countP p + l.countP p by
    simpa using h []
  induction l with
  | nil => intro acc; simp
  | cons x xs ih =>
      intro acc
      rw [List.foldl_cons, ih, insSorted_countP, List.countP_cons]
      omega

/-! ### Cascade lemmas -/

lemma scanBlock_eq : ∀ (a b : List ℕ) (off : ℕ) (corr : List ℕ),
    scanBlock a b off corr = (diffPositions a b off).filter fun p => decide (p ∉ corr)
  | [], b, off, corr => by cases b <;> simp [scanBlock, diffPositions]
  | x :: xs, [], off, corr => by simp [scanBlock, diffPositions]
  | x :: xs, y :: ys, off, corr => by
      rw [scanBlock, diffPositions, List.filter_append, scanBlock_eq xs ys (off + 1) corr]
      by_cases hxy : x = y
      · simp [hxy]
      · by_cases hoff : off ∈ corr <;> simp [hxy, hoff]

lemma diffPositions_length : ∀ (a b : List ℕ) (off : ℕ),
    (diffPositions a b off).length = countDiffs a b
  | [], b, off => by cases b <;> simp [diffPositions, countDiffs]
  | x :: xs, [], off => by simp [diffPositions, countDiffs]
  | x :: xs, y :: ys, off => by
      rw [diffPositions, countDiffs, List.length_append,
        diffPositions_length xs ys (off + 1)]
      by_cases hxy : x = y <;> simp [hxy]

lemma diffPositions_ge : ∀ (a b : List ℕ) (off : ℕ) (p : ℕ),
    p ∈ diffPositions a b off → off ≤ p
  | [], b, off, p => by cases b <;> simp [diffPositions]
  | x :: xs, [], off, p => by simp [diffPositions]
  | x :: xs, y :: ys, off, p => by
      intro hp
      rw [diffPositions, List.mem_append] at hp
      rcases hp with hp | hp
      · by_cases hxy : x = y
        · simp [hxy] at hp
        · simp [hxy] at hp; omega
      · have := diffPositions_ge xs ys (off + 1) p hp
        omega

lemma diffPositions_take_drop : ∀ (n : ℕ) (a b : List ℕ) (off : ℕ),
    a.length = b.length →
    diffPositions a b off =
      diffPositions (a.take n) (b.take n) off ++
        diffPositions (a.drop n) (b.drop n) (off + n) := by
  intro n
  induction n with
  | zero => intro a b off _; simp [diffPositions]
  | succ m ih =>
      intro a b off hlen
      match a, b with
      | [], [] => simp [diffPositions]
      | x :: xs, y :: ys =>
          rw [List.take_succ_cons, List.take_succ_cons, List.drop_succ_cons,
            List.drop_succ_cons, diffPositions, diffPositions, List.append_assoc]
          have : off + (m + 1) = (off + 1) + m := by omega
          rw [this, ← ih xs ys (off + 1) (by simpa using hlen)]

lemma countDiffs_take_drop : ∀ (n : ℕ) (a b : List ℕ),
    countDiffs a b = countDiffs (a.take n) (b.take n) + countDiffs (a.drop n) (b.drop n) := by
  intro n
  induction n with
  | zero => intro a b; simp [countDiffs]
  | succ m ih =>
      intro a b
      match a, b with
      | [], b => cases b <;> simp [countDiffs]
      | x :: xs, [] => simp [countDiffs]
      | x :: xs, y :: ys =>
          rw [List.take_succ_cons, List.take_succ_cons, List.drop_succ_cons,
            List.drop_succ_cons, countDiffs, countDiffs, ih xs ys]
          omega

lemma countDiffs_eq_zero : ∀ (a b : List ℕ), a.length = b.length →
    (countDiffs a b = 0 ↔ a = b)
  | [], [] => by simp [countDiffs]
  | [], y :: ys => by intro h; simp at h
  | x :: xs, [] => by intro h; simp at h
  | x :: xs, y :: ys => by
      intro hlen
      rw [countDiffs]
      have ih := countDiffs_eq_zero xs ys (by simpa using hlen)
      by_cases hxy : x = y
      · simp [hxy, ih]
      · simp [hxy]

lemma countDiffs_self (a : List ℕ) : countDiffs a a = 0 :=
  (countDiffs_eq_zero a a rfl).mpr rfl

lemma countDiffs_nil_left (l : List ℕ) : countDiffs [] l = 0 := by
  cases l <;> rfl

lemma sum_parity_countDiffs : ∀ (a b : List ℕ), a.length = b.length →
    bits01 a → bits01 b → (a.sum + b.sum) % 2 = countDiffs a b % 2
  | [], [] => by simp [countDiffs]
  | [], y :: ys => by intro h; simp at h
  | x :: xs, [] => by intro h; simp at h
  | x :: xs, y :: ys => by
      intro hlen ha hb
      have hx : x ≤ 1 := ha x (by simp)
      have hy : y ≤ 1 := hb y (by simp)
      have ih := sum_parity_countDiffs xs ys (by simpa using hlen)
        (fun z hz => ha z (by simp [hz])) (fun z hz => hb z (by simp [hz]))
      rw [countDiffs, List.sum_cons, List.sum_cons]
      interval_cases x <;> interval_cases y <;> simp <;> omega

lemma parity_ne_of_countDiffs_odd (a b : List ℕ) (hlen : a.length = b.length)
    (ha : bits01 a) (hb : bits01 b) (hodd : countDiffs a b % 2 = 1) :
    parity a ≠ parity b := by
  intro hpar
  have hsum := sum_parity_countDiffs a b hlen ha hb
  unfold parity at hpar
  omega

lemma bits01_take (a : List ℕ) (n : ℕ) (ha : bits01 a) : bits01 (a.take n) :=
  fun x hx => ha x (List.mem_of_mem_take hx)

lemma bits01_drop (a : List ℕ) (n : ℕ) (ha : bits01 a) : bits01 (a.drop n) :=
  fun x hx => ha x (List.mem_of_mem_drop hx)

lemma scanBlock_nil (b : List ℕ) (off : ℕ) (corr : List ℕ) :
    scanBlock [] b off corr = [] := by
  cases b <;> rfl

lemma findErrorsGo_small (fuel : ℕ) (a b : List ℕ) (off : ℕ) (corr : List ℕ)
    (h : a.length ≤ 4) (hf : 1 ≤ fuel) :
    findErrorsGo fuel a b off corr = scanBlock a b off corr := by
  match fuel with
  | 0 => omega
  | n + 1 => rw [findErrorsGo, if_pos h]

lemma find_errors_small (a b : List ℕ) (off : ℕ) (corr : List ℕ)
    (h : a.length ≤ 4) :
    find_errors_in_block a b off corr = scanBlock a b off corr := by
  match a with
  | [] => rw [scanBlock_nil]; rfl
  | x :: xs =>
      exact findErrorsGo_small (x :: xs).length (x :: xs) b off corr h (by simp)

/-- Specification of `_find_errors_in_block` for blocks of length at
most 8: when the parities differ (the only case the pass calls it in),
every disagreeing position not already corrected is reported. -/
lemma find_errors_spec (a b : List ℕ) (off : ℕ) (corr : List ℕ)
    (hlen : a.length = b.length) (h8 : a.length ≤ 8)
    (hcase : a.length ≤ 4 ∨ parity a ≠ parity b) :
    find_errors_in_block a b off corr =
      (diffPositions a b off).filter fun p => decide (p ∉ corr) := by
  by_cases h4 : a.length ≤ 4
  · rw [find_errors_small a b off corr h4, scanBlock_eq]
  · have hpar : parity a ≠ parity b := hcase.resolve_left h4
    obtain ⟨n, hn⟩ : ∃ n, a.length = n + 1 := ⟨a.length - 1, by omega⟩
    have hstep : find_errors_in_block a b off corr = findErrorsGo (n + 1) a b off corr := by
      unfold find_errors_in_block; rw [hn]
    rw [hstep, findErrorsGo, if_neg h4, if_neg (by simpa using hpar)]
    rw [findErrorsGo_small n _ _ _ _ (by simp [List.length_take]; omega) (by omega),
      findErrorsGo_small n _ _ _ _ (by simp [List.length_drop]; omega) (by omega)]
    rw [scanBlock_eq, scanBlock_eq, ← List.filter_append,
      ← diffPositions_take_drop (a.length / 2) a b off hlen]

lemma set_single_diff : ∀ (a b : List ℕ) (off q : ℕ),
    a.length = b.length → bits01 a → bits01 b →
    diffPositions a b off = [q] →
    b.set (q - off) (1 - b.getD (q - off) 0) = a
  | [], [], off, q => by simp [diffPositions]
  | [], y :: ys, off, q => by intro h; simp at h
  | x :: xs, [], off, q => by intro h; simp at h
  | x :: xs, y :: ys, off, q => by
      intro hlen ha hb hdp
      have hx : x ≤ 1 := ha x (by simp)
      have hy : y ≤ 1 := hb y (by simp)
      rw [diffPositions] at hdp
      by_cases hxy : x = y
      · simp only [hxy, ne_eq, not_true_eq_false, if_neg, ite_false,
          List.nil_append] at hdp
        have hq : off + 1 ≤ q := diffPositions_ge xs ys (off + 1) q (by simp [hdp])
        have hsub : q - off = (q - (off + 1)) + 1 := by omega
        rw [hsub]
        simp only [List.set_cons_succ, List.getD_cons_succ]
        rw [set_single_diff xs ys (off + 1) q (by simpa using hlen)
          (fun z hz => ha z (by simp [hz])) (fun z hz => hb z (by simp [hz])) hdp]
        exact congrArg (· :: xs) hxy.symm
      · simp only [hxy, ne_eq, not_false_eq_true, if_pos, ite_true] at hdp
        have htail : diffPositions xs ys (off + 1) = [] := by
          cases hdp' : diffPositions xs ys (off + 1) with
          | nil => rfl
          | cons z zs => rw [hdp'] at hdp; simp at hdp
        have hqoff : q = off := by
          rw [htail] at hdp; simpa using (List.cons_eq_cons.mp hdp).1.symm
        have hxs : xs = ys := by
          have h0 : countDiffs xs ys = 0 := by
            rw [← diffPositions_length xs ys (off + 1), htail]; rfl
          exact (countDiffs_eq_zero xs ys (by simpa using hlen)).mp h0
        subst hqoff hxs
        simp only [Nat.sub_self, List.set_cons_zero, List.getD_cons_zero]
        have : 1 - y = x := by omega
        rw [this]

lemma correctBlock_single (b : List ℕ) (off q : ℕ) :
    correctBlock b [q] off [] =
      (b.set (q - off) (1 - b.getD (q - off) 0), [q]) := by
  simp [correctBlock]

/-- A pass over two identical arrays corrects nothing and changes
nothing: every block parity matches. -/
lemma passGo_self : ∀ (fuel : ℕ) (a : List ℕ), a.length ≤ fuel →
    ∀ (bsPred off : ℕ) (corr : List ℕ),
      reconcilePassGo fuel a a bsPred off corr = (a, []) := by
  intro fuel
  induction fuel with
  | zero =>
      intro a h _ _ _
      have : a = [] := List.eq_nil_of_length_eq_zero (by omega)
      subst this; rfl
  | succ n ih =>
      intro a h bsPred off corr
      match a with
      | [] => rfl
      | x :: xs =>
          rw [reconcilePassGo]
          have hdrop := ih (xs.drop bsPred)
            (by simp [List.length_drop]; simp at h; omega) bsPred (off + (bsPred + 1)) corr
          simp only [ne_eq, not_true_eq_false, if_false, List.drop_succ_cons, hdrop]
          simp [List.take_append_drop]

lemma pass_self (a : List ℕ) (bsPred off : ℕ) (corr : List ℕ) :
    reconcile_pass a a bsPred off corr = (a, []) :=
  passGo_self a.length a (le_refl _) bsPred off corr

/-- A pass with block size 8 over two bit arrays disagreeing in at
most one position per aligned 8-bit block corrects every
disagreement: each mismatched block has odd (one) parity difference
and its single error is found and flipped. -/
lemma passGo_perblock : ∀ (fuel : ℕ) (a b : List ℕ), a.length ≤ fuel →
    a.length = b.length → bits01 a → bits01 b →
    (∀ n, countDiffs ((a.drop (8 * n)).take 8) ((b.drop (8 * n)).take 8) ≤ 1) →
    ∀ off : ℕ, ∃ nc, reconcilePassGo fuel a b 7 off [] = (a, nc) ∧
      nc.length = countDiffs a b := by
  intro fuel
  induction fuel with
  | zero =>
      intro a b hf hlen _ _ _ _
      have hA : a = [] := List.eq_nil_of_length_eq_zero (by omega)
      subst hA
      have hB : b = [] := List.eq_nil_of_length_eq_zero (by simpa using hlen.symm)
      subst hB
      exact ⟨[], rfl, rfl⟩
  | succ n ih =>
      intro a b hf hlen ha hb hblocks off
      match a, b with
      | [], b =>
          have hB : b = [] := List.eq_nil_of_length_eq_zero (by simpa using hlen.symm)
          subst hB
          exact ⟨[], rfl, rfl⟩
      | x :: xs, [] => simp at hlen
      | x :: xs, y :: ys =>
          have hsplit := countDiffs_take_drop 8 (x :: xs) (y :: ys)
          have hxy : xs.length = ys.length := by simpa using hlen
          have hlentake : ((x :: xs).take 8).length = ((y :: ys).take 8).length := by
            simp [List.length_take]; omega
          have hlendrop : ((x :: xs).drop 8).length = ((y :: ys).drop 8).length := by
            simp [List.length_drop]; omega
          have hc8 : countDiffs ((x :: xs).take 8) ((y :: ys).take 8) ≤ 1 := by
            have := hblocks 0
            simpa using this
          rw [show (x :: xs).drop 8 = xs.drop 7 from rfl] at hsplit
          have htail : ∀ nn, countDiffs (((xs.drop 7).drop (8 * nn)).take 8)
              ((((y :: ys).drop 8).drop (8 * nn)).take 8) ≤ 1 := by
            intro nn
            have hinst := hblocks (nn + 1)
            have e1 : (x :: xs).drop (8 * (nn + 1)) = (xs.drop 7).drop (8 * nn) := by
              rw [List.drop_drop, show 8 * (nn + 1) = (7 + 8 * nn) + 1 from by ring,
                List.drop_succ_cons]
            have e2 : (y :: ys).drop (8 * (nn + 1)) = ((y :: ys).drop 8).drop (8 * nn) := by
              rw [List.drop_drop]; congr 1; ring
            rw [e1, e2] at hinst
            exact hinst
          obtain ⟨nc, hnc, hnclen⟩ := ih (xs.drop 7) ((y :: ys).drop 8)
            (by simp [List.length_drop]; simp at hf; omega)
            (by simpa [List.length_drop] using hlendrop)
            (bits01_drop _ 8 ha) (bits01_drop _ 8 hb) htail (off + 8)
          rw [reconcilePassGo]
          by_cases hc : countDiffs ((x :: xs).take 8) ((y :: ys).take 8) = 0
          -- this block agrees
          · have htake : (x :: xs).take 8 = (y :: ys).take 8 :=
              (countDiffs_eq_zero _ _ hlentake).mp hc
            refine ⟨nc, ?_, by omega⟩
            simp only [ne_eq, htake, not_true_eq_false, if_false]
            rw [hnc]
            simp only [← htake, List.nil_append]
            simp [List.take_append_drop]
          -- this block has exactly one disagreement
          · have hc1 : countDiffs ((x :: xs).take 8) ((y :: ys).take 8) = 1 := by omega
            have hpar : parity ((x :: xs).take 8) ≠ parity ((y :: ys).take 8) :=
              parity_ne_of_countDiffs_odd _ _ hlentake
                (bits01_take _ 8 ha) (bits01_take _ 8 hb) (by omega)
            obtain ⟨q, hdp⟩ : ∃ q, diffPositions ((x :: xs).take 8) ((y :: ys).take 8) off = [q] := by
              apply List.length_eq_one.mp
              rw [diffPositions_length]; exact hc1
            refine ⟨q :: nc, ?_, by simp; omega⟩
            rw [show (7 : ℕ) + 1 = 8 from rfl]
            rw [if_pos (by simpa using hpar)]
            rw [find_errors_spec _ _ _ _ hlentake (by simp [List.length_take])
              (Or.inr hpar), hdp]
            have hfil : (([q] : List ℕ).filter fun p => decide (p ∉ ([] : List ℕ))) = [q] := by
              simp
            rw [hfil]
            rw [correctBlock_single,
              set_single_diff _ _ off q hlentake (bits01_take _ 8 ha) (bits01_take _ 8 hb) hdp]
            rw [hnc]
            simp [List.take_append_drop]

/-- The default four passes on keys with at most one disagreement per
aligned 8-bit block: pass 1 (block size 8) corrects all of them, and
then either there were none (early stop at pass 1) or pass 2 corrects
nothing and stops early. -/
lemma run_passes_perblock (a b : List ℕ) (hlen : a.length = b.length)
    (ha : bits01 a) (hb : bits01 b)
    (hblocks : ∀ n, countDiffs ((a.drop (8 * n)).take 8) ((b.drop (8 * n)).take 8) ≤ 1) :
    run_passes a 8 4 1 b [] 0 = (a, countDiffs a b) := by
  obtain ⟨nc, hpass, hnclen⟩ :=
    passGo_perblock a.length a b (le_refl _) hlen ha hb hblocks 0
  have hpass' : reconcile_pass a b 7 0 [] = (a, nc) := hpass
  rw [run_passes]
  have h8 : max 1 (8 / 2 ^ (1 - 1)) = 8 := by norm_num
  rw [h8]
  rw [show (8 : ℕ) - 1 = 7 from rfl, hpass']
  by_cases hz : nc.length = 0
  · rw [if_pos hz]
    rw [← hnclen, hz]
  · rw [if_neg hz]
    rw [run_passes]
    have h4 : max 1 (8 / 2 ^ (2 - 1)) = 4 := by norm_num
    rw [h4]
    rw [show (4 : ℕ) - 1 = 3 from rfl, pass_self a 3 0 ([] ++ nc)]
    simp [hnclen]

lemma countP_congr_mem (p q : α → Bool) : ∀ l : List α,
    (∀ a ∈ l, p a = q a) → l.countP p = l.countP q
  | [], _ => rfl
  | x :: xs, h => by
      rw [List.countP_cons, List.countP_cons,
        countP_congr_mem p q xs fun a ha => h a (by simp [ha]), h x (by simp)]

lemma bytesToBits_bits01 (d : List ℕ) : bits01 (bytesToBits d) := by
  induction d with
  | nil => intro x hx; simp [bytesToBits] at hx
  | cons b rest ih =>
      intro x hx
      simp only [bytesToBits, List.mem_append] at hx
      rcases hx with hx | hx
      · simp only [byteBits, List.mem_map, List.mem_range] at hx
        obtain ⟨i, _, rfl⟩ := hx
        exact Nat.and_le_right
      · exact ih x hx

/-! ### LDPC lemmas -/

lemma genH_castAdd (k m : ℕ) (pos : Fin m → Finset (Fin k)) (i : Fin m) (a : Fin k) :
    genH k m pos i (Fin.castAdd m a) = if a ∈ pos i then 1 else 0 := by
  simp [genH, a.isLt]

lemma genH_natAdd (k m : ℕ) (pos : Fin m → Finset (Fin k)) (i i' : Fin m) :
    genH k m pos i (Fin.natAdd k i') = if i' = i then 1 else 0 := by
  have h : ¬ ((Fin.natAdd k i' : Fin (k + m)) : ℕ) < k := by simp [Fin.natAdd]
  simp only [genH, h, dif_neg, not_false_eq_true]
  by_cases he : i' = i
  · simp [he, Fin.natAdd]
  · have : ¬ ((Fin.natAdd k i' : Fin (k + m)) : ℕ) = k + (i : ℕ) := by
      simp only [Fin.natAdd]
      intro hc
      exact he (Fin.ext (by omega))
    simp only [this, if_false, he]

lemma genGmain_castAdd (k m : ℕ) (H : Fin m → Fin (k + m) → ℕ) (a b : Fin k) :
    genGmain k m H a (Fin.castAdd m b) = if (b : ℕ) = (a : ℕ) then 1 else 0 := by
  unfold genGmain
  rw [dif_pos (show ((Fin.castAdd m b : Fin (k + m)) : ℕ) < k by simp)]
  rfl

lemma genGmain_natAdd (k m : ℕ) (H : Fin m → Fin (k + m) → ℕ) (a : Fin k) (i : Fin m) :
    genGmain k m H a (Fin.natAdd k i) =
      H i (Fin.castLE (Nat.le_add_right k m) a) % 2 := by
  have h : ¬ ((Fin.natAdd k i : Fin (k + m)) : ℕ) < k := by simp [Fin.natAdd]
  unfold genGmain
  rw [dif_neg h]
  have hidx : (⟨((Fin.natAdd k i : Fin (k + m)) : ℕ) - k,
      by have := (Fin.natAdd k i : Fin (k + m)).isLt; omega⟩ : Fin m) = i :=
    Fin.ext (by simp only [Fin.coe_natAdd]; omega)
  rw [hidx]

lemma genH_le_one (k m : ℕ) (pos : Fin m → Finset (Fin k)) (i : Fin m)
    (j : Fin (k + m)) : genH k m pos i j ≤ 1 := by
  unfold genH
  by_cases h : (j : ℕ) < k
  · simp only [h, dif_pos]
    split <;> omega
  · simp only [h, dif_neg, not_false_eq_true]
    split <;> omega

/-- The verification `(G · Hᵀ) % 2 == 0` of the primary construction
always passes: each entry is `H[i,a] + H[i,a]`. -/
lemma GH_orth (k m : ℕ) (pos : Fin m → Finset (Fin k)) :
    ∀ (a : Fin k) (i : Fin m),
      (∑ j, genGmain k m (genH k m pos) a j * genH k m pos i j) % 2 = 0 := by
  intro a i
  rw [Fin.sum_univ_add]
  have h1 : (∑ b : Fin k, genGmain k m (genH k m pos) a (Fin.castAdd m b) *
      genH k m pos i (Fin.castAdd m b)) = genH k m pos i (Fin.castAdd m a) := by
    have hterm : ∀ b : Fin k,
        genGmain k m (genH k m pos) a (Fin.castAdd m b) *
          genH k m pos i (Fin.castAdd m b) =
        if b = a then genH k m pos i (Fin.castAdd m b) else 0 := by
      intro b
      rw [genGmain_castAdd]
      by_cases hba : b = a
      · simp [hba]
      · have : ¬ ((b : ℕ) = (a : ℕ)) := fun hc => hba (Fin.ext hc)
        simp [this, hba]
    rw [Finset.sum_congr rfl fun b _ => hterm b]
    simp [Finset.sum_ite_eq']
  have h2 : (∑ i' : Fin m, genGmain k m (genH k m pos) a (Fin.natAdd k i') *
      genH k m pos i (Fin.natAdd k i')) =
      genH k m pos i (Fin.castLE (Nat.le_add_right k m) a) % 2 := by
    have hterm : ∀ i' : Fin m,
        genGmain k m (genH k m pos) a (Fin.natAdd k i') *
          genH k m pos i (Fin.natAdd k i') =
        if i' = i then genH k m pos i' (Fin.castLE (Nat.le_add_right k m) a) % 2 else 0 := by
      intro i'
      rw [genGmain_natAdd, genH_natAdd]
      by_cases hii : i' = i
      · simp [hii]
      · simp [hii]
    rw [Finset.sum_congr rfl fun i' _ => hterm i']
    simp [Finset.sum_ite_eq']
  rw [h1, h2]
  have hcast : (Fin.castAdd m a : Fin (k + m)) =
      Fin.castLE (Nat.le_add_right k m) a := rfl
  rw [hcast]
  omega

/-- The verification always passing, `genG` is the primary
construction. -/
lemma genG_eq_main (k m : ℕ) (pos : Fin m → Finset (Fin k))
    (rnd : Fin k → Fin m → ℕ) :
    genG k m (genH k m pos) rnd = genGmain k m (genH k m pos) := by
  unfold genG
  rw [if_pos (GH_orth k m pos)]

lemma encode_le_one (k m : ℕ) (G : Fin k → Fin (k + m) → ℕ) (msg : Fin k → ℕ)
    (j : Fin (k + m)) : encode k m G msg j ≤ 1 := by
  unfold encode; omega

lemma encode_castAdd (k m : ℕ) (pos : Fin m → Finset (Fin k))
    (rnd : Fin k → Fin m → ℕ) (msg : Fin k → ℕ) (hmsg : ∀ a, msg a ≤ 1) (a : Fin k) :
    encode k m (genG k m (genH k m pos) rnd) msg (Fin.castAdd m a) = msg a := by
  unfold encode
  rw [genG_eq_main]
  have hterm : ∀ b : Fin k,
      msg b * genGmain k m (genH k m pos) b (Fin.castAdd m a) =
        if b = a then msg b else 0 := by
    intro b
    rw [genGmain_castAdd]
    by_cases hba : b = a
    · simp [hba]
    · have hne : ¬ ((a : ℕ) = (b : ℕ)) := fun hc => hba (Fin.ext hc.symm)
      simp [hne, hba]
  rw [Finset.sum_congr rfl fun b _ => hterm b, Finset.sum_ite_eq' Finset.univ a msg]
  simp only [Finset.mem_univ, if_true]
  exact Nat.mod_eq_of_lt (by have := hmsg a; omega)

/-- The true codeword has zero syndrome: `H · encode(msg) ≡ 0 (mod 2)`
in every row. -/
lemma syndrome_zero (k m : ℕ) (pos : Fin m → Finset (Fin k))
    (rnd : Fin k → Fin m → ℕ) (msg : Fin k → ℕ) (hmsg : ∀ a, msg a ≤ 1) (i : Fin m) :
    (∑ j, genH k m pos i j * encode k m (genG k m (genH k m pos) rnd) msg j) % 2 = 0 := by
  rw [Fin.sum_univ_add]
  have h1 : (∑ b : Fin k, genH k m pos i (Fin.castAdd m b) *
      encode k m (genG k m (genH k m pos) rnd) msg (Fin.castAdd m b)) =
      ∑ b : Fin k, (if b ∈ pos i then 1 else 0) * msg b := by
    apply Finset.sum_congr rfl
    intro b _
    rw [genH_castAdd, encode_castAdd k m pos rnd msg hmsg]
  have h2 : (∑ i' : Fin m, genH k m pos i (Fin.natAdd k i') *
      encode k m (genG k m (genH k m pos) rnd) msg (Fin.natAdd k i')) =
      encode k m (genG k m (genH k m pos) rnd) msg (Fin.natAdd k i) := by
    have hterm : ∀ i' : Fin m,
        genH k m pos i (Fin.natAdd k i') *
          encode k m (genG k m (genH k m pos) rnd) msg (Fin.natAdd k i') =
        if i' = i then encode k m (genG k m (genH k m pos) rnd) msg (Fin.natAdd k i') else 0 := by
      intro i'
      rw [genH_natAdd]
      by_cases hii : i' = i
      · simp [hii]
      · simp [hii]
    rw [Finset.sum_congr rfl fun i' _ => hterm i']
    rw [Finset.sum_ite_eq' Finset.univ i
      (fun i' => encode k m (genG k m (genH k m pos) rnd) msg (Fin.natAdd k i'))]
    simp
  have h3 : encode k m (genG k m (genH k m pos) rnd) msg (Fin.natAdd k i) =
      (∑ b : Fin k, (if b ∈ pos i then 1 else 0) * msg b) % 2 := by
    unfold encode
    rw [genG_eq_main]
    congr 1
    apply Finset.sum_congr rfl
    intro b _
    rw [genGmain_natAdd]
    have hcast : genH k m pos i (Fin.castLE (Nat.le_add_right k m) b) =
        if b ∈ pos i then 1 else 0 := genH_castAdd k m pos i b
    rw [hcast]
    by_cases hbp : b ∈ pos i <;> simp [hbp, Nat.mul_comm]
  rw [h1, h2, h3]
  omega

/-- Per-check even parity of the codeword over the participating
bits. -/
lemma syndrome_filter_zero (k m : ℕ) (pos : Fin m → Finset (Fin k))
    (rnd : Fin k → Fin m → ℕ) (msg : Fin k → ℕ) (hmsg : ∀ a, msg a ≤ 1) (i : Fin m) :
    (∑ j in Finset.univ.filter (fun j => genH k m pos i j = 1),
      encode k m (genG k m (genH k m pos) rnd) msg j) % 2 = 0 := by
  have h := syndrome_zero k m pos rnd msg hmsg i
  rw [Finset.sum_filter]
  have hterm : ∀ j, (if genH k m pos i j = 1 then
      encode k m (genG k m (genH k m pos) rnd) msg j else 0) =
      genH k m pos i j * encode k m (genG k m (genH k m pos) rnd) msg j := by
    intro j
    have := genH_le_one k m pos i j
    interval_cases h01 : genH k m pos i j <;> simp
  rw [Finset.sum_congr rfl fun j _ => hterm j]
  exact h

/-- Sign of a tanh-domain product over a set of bits whose likelihood
signs follow the codeword: positive for an even number of one-bits,
negative for odd. -/
lemma prodSign (n : ℕ) (t : ℚ → ℚ) (ht1 : ∀ x, 0 < x → 0 < t x)
    (ht2 : ∀ x, x < 0 → t x < 0) (c : Fin n → ℕ) (hc : ∀ j, c j ≤ 1)
    (llrs : Fin n → ℚ)
    (hinv : ∀ j, (c j = 0 → 1 ≤ llrs j) ∧ (c j = 1 → llrs j ≤ -1)) :
    ∀ S : Finset (Fin n),
      ((∑ j in S, c j) % 2 = 0 → 0 < ∏ j in S, t (llrs j / 2)) ∧
      ((∑ j in S, c j) % 2 = 1 → ∏ j in S, t (llrs j / 2) < 0) := by
  intro S
  induction S using Finset.induction_on with
  | empty => simp
  | @insert a s ha ih =>
      rw [Finset.sum_insert ha, Finset.prod_insert ha]
      have hca := hc a
      rcases (by omega : c a = 0 ∨ c a = 1) with ha0 | ha1
      · have hpos : 0 < t (llrs a / 2) := by
          have h1 := (hinv a).1 ha0
          exact ht1 _ (by linarith)
        constructor
        · intro hpar
          have : (∑ j in s, c j) % 2 = 0 := by omega
          exact mul_pos hpos (ih.1 this)
        · intro hpar
          have : (∑ j in s, c j) % 2 = 1 := by omega
          exact mul_neg_of_pos_of_neg hpos (ih.2 this)
      · have hneg : t (llrs a / 2) < 0 := by
          have h1 := (hinv a).2 ha1
          exact ht2 _ (by linarith)
        constructor
        · intro hpar
          have : (∑ j in s, c j) % 2 = 1 := by omega
          exact mul_pos_of_neg_of_neg hneg (ih.2 this)
        · intro hpar
          have : (∑ j in s, c j) % 2 = 0 := by omega
          exact mul_neg_of_neg_of_pos hneg (ih.1 this)

/-- One belief-propagation round preserves the sign/magnitude
invariant: each check message pushes every bit further toward its
codeword value. -/
lemma inv_step (k m : ℕ) (t : ℚ → ℚ) (ht1 : ∀ x, 0 < x → 0 < t x)
    (ht2 : ∀ x, x < 0 → t x < 0) (pos : Fin m → Finset (Fin k))
    (c : Fin (k + m) → ℕ) (hc : ∀ j, c j ≤ 1)
    (hEven : ∀ i, (∑ j in Finset.univ.filter (fun j => genH k m pos i j = 1), c j) % 2 = 0)
    (llrs : Fin (k + m) → ℚ)
    (hinv : ∀ j, (c j = 0 → 1 ≤ llrs j) ∧ (c j = 1 → llrs j ≤ -1)) :
    ∀ j, (c j = 0 → 1 ≤ varUpdate t k m (genH k m pos) llrs j) ∧
      (c j = 1 → varUpdate t k m (genH k m pos) llrs j ≤ -1) := by
  intro j
  have hmsg_sign : ∀ i : Fin m, genH k m pos i j = 1 →
      (c j = 0 → 0 ≤ checkMsg t k m (genH k m pos) llrs i j) ∧
      (c j = 1 → checkMsg t k m (genH k m pos) llrs i j ≤ 0) := by
    intro i hij
    unfold checkMsg
    rw [if_pos hij]
    by_cases hne : (Finset.univ.filter fun j' => j' ≠ j ∧ genH k m pos i j' = 1).Nonempty
    · rw [if_pos hne]
      have hSet : (Finset.univ.filter fun j' => j' ≠ j ∧ genH k m pos i j' = 1) =
          (Finset.univ.filter fun j' => genH k m pos i j' = 1).erase j := by
        ext j'
        simp [Finset.mem_erase, Finset.mem_filter, and_comm]
      have hj_mem : j ∈ Finset.univ.filter fun j' => genH k m pos i j' = 1 := by
        simp [hij]
      have hsum := Finset.add_sum_erase _ c hj_mem
      have hEv := hEven i
      have hprod := prodSign (k + m) t ht1 ht2 c hc llrs hinv
        ((Finset.univ.filter fun j' => genH k m pos i j' = 1).erase j)
      rw [hSet]
      constructor
      · intro hcj0
        have hpar : (∑ j' in (Finset.univ.filter fun j' =>
            genH k m pos i j' = 1).erase j, c j') % 2 = 0 := by omega
        have := hprod.1 hpar
        linarith
      · intro hcj1
        have hpar : (∑ j' in (Finset.univ.filter fun j' =>
            genH k m pos i j' = 1).erase j, c j') % 2 = 1 := by omega
        have := hprod.2 hpar
        linarith
    · rw [if_neg hne]
      exact ⟨fun _ => le_refl 0, fun _ => le_refl 0⟩
  constructor
  · intro hcj0
    have hs : 0 ≤ ∑ i in Finset.univ.filter (fun i => genH k m pos i j = 1),
        checkMsg t k m (genH k m pos) llrs i j := by
      apply Finset.sum_nonneg
      intro i hi
      exact (hmsg_sign i (Finset.mem_filter.mp hi).2).1 hcj0
    have h1 := (hinv j).1 hcj0
    unfold varUpdate
    linarith
  · intro hcj1
    have hs : (∑ i in Finset.univ.filter (fun i => genH k m pos i j = 1),
        checkMsg t k m (genH k m pos) llrs i j) ≤ 0 := by
      apply Finset.sum_nonpos
      intro i hi
      exact (hmsg_sign i (Finset.mem_filter.mp hi).2).2 hcj1
    have h1 := (hinv j).2 hcj1
    unfold varUpdate
    linarith

lemma hardDec_eq (k m : ℕ) (c : Fin (k + m) → ℕ) (hc : ∀ j, c j ≤ 1)
    (llrs : Fin (k + m) → ℚ)
    (hinv : ∀ j, (c j = 0 → 1 ≤ llrs j) ∧ (c j = 1 → llrs j ≤ -1)) :
    hardDec (k + m) llrs = c := by
  funext j
  unfold hardDec
  rcases (by have := hc j; omega : c j = 0 ∨ c j = 1) with h0 | h1
  · have := (hinv j).1 h0
    rw [if_neg (by linarith), h0]
  · have := (hinv j).2 h1
    rw [if_pos (by linarith), h1]

/-- The decoding loop started on likelihoods whose signs follow a
zero-syndrome codeword always returns that codeword with
`success = true`, whether it early-returns or exhausts its
iterations. -/
lemma decodeGo_conv (k m : ℕ) (t : ℚ → ℚ) (ht1 : ∀ x, 0 < x → 0 < t x)
    (ht2 : ∀ x, x < 0 → t x < 0) (pos : Fin m → Finset (Fin k))
    (c : Fin (k + m) → ℕ) (hc : ∀ j, c j ≤ 1)
    (hEven : ∀ i, (∑ j in Finset.univ.filter (fun j => genH k m pos i j = 1), c j) % 2 = 0)
    (hsynd : ∀ i, (∑ j, genH k m pos i j * c j) % 2 = 0) :
    ∀ (fuel : ℕ) (llrs : Fin (k + m) → ℚ),
      (∀ j, (c j = 0 → 1 ≤ llrs j) ∧ (c j = 1 → llrs j ≤ -1)) →
      decodeGo t k m (genH k m pos) fuel llrs = (c, true) := by
  intro fuel
  induction fuel with
  | zero =>
      intro llrs hinv
      simp only [decodeGo]
      rw [hardDec_eq k m c hc llrs hinv]
      rw [decide_eq_true hsynd]
  | succ n ih =>
      intro llrs hinv
      have hinv2 := inv_step k m t ht1 ht2 pos c hc hEven llrs hinv
      simp only [decodeGo]
      by_cases hcond : ∀ i : Fin m,
          fmod2 (∑ j, (genH k m pos i j : ℚ) * varUpdate t k m (genH k m pos) llrs j) = 0
      · rw [if_pos hcond, hardDec_eq k m c hc _ hinv2]
      · rw [if_neg hcond]
        exact ih _ hinv2

/-! ## Claim theorems: bit utilities, privacy amplification, error
detection, Cascade -/

/-- C10: for every byte string, converting it to a bit array and back
is the identity, and the bits are laid out least-significant-bit first
within each byte (the bit list of byte `b` is
`[(b>>>0)&&&1, ..., (b>>>7)&&&1]`). -/
theorem c10_bits_bytes_roundtrip :
    (∀ d : List ℕ, (∀ b ∈ d, b < 256) → bitsToBytes (bytesToBits d) = d) ∧
    (∀ b : ℕ, bytesToBits [b] = (List.range 8).map fun i => (b >>> i) &&& 1) := by
  constructor
  · exact roundTrip
  · intro b; simp [bytesToBits, byteBits]

/-- Witness for C10 at a concrete byte string. -/
theorem c10_witness : bitsToBytes (bytesToBits [5, 170, 255]) = [5, 170, 255] :=
  c10_bits_bytes_roundtrip.1 [5, 170, 255] (by decide)

/-- C6: privacy amplification is a pure function of
`(raw_key, output_length, seed)` — two calls on identical inputs give
identical output — and its output is exactly `output_length` bytes.
(`h` models SHA-256, whose digests are 32 bytes.) -/
theorem c6_privacy_amplification :
    ∀ (h : List ℕ → List ℕ), (∀ x, (h x).length = 32) →
      ∀ (raw_key seed : List ℕ) (output_length : ℕ),
        privacy_amplification h raw_key output_length seed =
          privacy_amplification h raw_key output_length seed ∧
        (privacy_amplification h raw_key output_length seed).length = output_length :=
  fun h hl raw seed len => ⟨rfl, privacy_amplification_length h hl raw len seed⟩

/-- Witness for C6 with a concrete 32-byte-output hash. -/
theorem c6_witness :
    privacy_amplification (fun _ => List.replicate 32 0) [1, 2, 3] 40 [9] =
        privacy_amplification (fun _ => List.replicate 32 0) [1, 2, 3] 40 [9] ∧
      (privacy_amplification (fun _ => List.replicate 32 0) [1, 2, 3] 40 [9]).length = 40 :=
  c6_privacy_amplification (fun _ => List.replicate 32 0) (fun _ => by simp) [1, 2, 3] [9] 40

/-- C7, counterexample: the sampling draws are independent
`secrets.randbelow` outcomes, i.e. sampling with replacement.  The
draw sequence `[0, 0]` is a possible outcome for 1-byte keys and
`sample_size = 2` (each draw is below `max_samples = 8` and the number
of draws is `min(sample_size, max_samples) = 2`), yet the selected
indices are not pairwise distinct, contradicting sampling without
replacement. -/
theorem c7_counterexample :
    (∀ x ∈ ([0, 0] : List ℕ), x < 8 * min ([0] : List ℕ).length ([0] : List ℕ).length) ∧
    ([0, 0] : List ℕ).length = min 2 (8 * min ([0] : List ℕ).length ([0] : List ℕ).length) ∧
    ¬ (sampleIndices [0, 0]).Pairwise (· ≠ ·) := by
  refine ⟨by decide, by decide, ?_⟩
  intro hp
  have : sampleIndices [0, 0] = [0, 0] := by decide
  rw [this] at hp
  exact (List.pairwise_cons.mp hp).1 0 (by simp) rfl

/-- C7, amended: `error_detection` samples with replacement (duplicate
indices possible); it compares the bits at the sampled positions and
returns the number of disagreements (counted with multiplicity)
divided by the number of sampled indices, or 0.0 with no samples. -/
theorem c7_error_detection_rate :
    ∀ (key_alice key_bob : List ℕ) (draws : List ℕ),
      (∀ x ∈ draws, x < 8 * min key_alice.length key_bob.length) →
      (draws = [] → error_detection key_alice key_bob draws = 0) ∧
      (draws ≠ [] →
        error_detection key_alice key_bob draws =
          (draws.countP (fun idx =>
            decide (bitOfKey key_alice idx ≠ bitOfKey key_bob idx)) : ℚ) / draws.length) := by
  intro kA kB draws hvalid
  constructor
  · rintro rfl; rfl
  · intro hne
    unfold error_detection
    have hlen := stableSort_length (fun a b => decide (a ≤ b)) draws
    have hnonnil : sampleIndices draws ≠ [] := by
      intro hcontra
      apply hne
      have h0 : draws.length = 0 := by
        rw [← hlen, show stableSort (fun a b => decide (a ≤ b)) draws =
          sampleIndices draws from rfl, hcontra, List.length_nil]
      exact List.eq_nil_of_length_eq_zero h0
    rw [if_neg hnonnil]
    have hcount : (sampleIndices draws).countP (fun idx =>
        decide (idx / 8 < kA.length ∧ idx / 8 < kB.length ∧
          bitOfKey kA idx ≠ bitOfKey kB idx)) =
        draws.countP (fun idx =>
          decide (idx / 8 < kA.length ∧ idx / 8 < kB.length ∧
            bitOfKey kA idx ≠ bitOfKey kB idx)) :=
      stableSort_countP _ _ _
    have hguard : draws.countP (fun idx =>
        decide (idx / 8 < kA.length ∧ idx / 8 < kB.length ∧
          bitOfKey kA idx ≠ bitOfKey kB idx)) =
        draws.countP (fun idx => decide (bitOfKey kA idx ≠ bitOfKey kB idx)) := by
      apply countP_congr_mem
      intro a ha
      have hx := hvalid a ha
      have h1 : a / 8 < kA.length := by omega
      have h2 : a / 8 < kB.length := by omega
      simp [h1, h2]
    rw [hcount, hguard, show (sampleIndices draws).length =
      draws.length from hlen]

/-- Witness for C7's amended statement: 1-byte keys `0x00` and `0xFF`
disagree at every sampled position. -/
theorem c7_witness : error_detection [0] [255] [3, 3, 7] = 1 := by
  have h := (c7_error_detection_rate [0] [255] [3, 3, 7] (by decide)).2 (by decide)
  have hc : List.countP (fun idx =>
      decide (bitOfKey [0] idx ≠ bitOfKey [255] idx)) [3, 3, 7] = 3 := by decide
  rw [h, hc]
  norm_num

/-- C5, counterexample: a 16-bit block whose parities differ (Bob's
copy has bit errors at positions 0, 1 and 8): the bisection reports
only position 8 — the even-count mismatch {0, 1} inside the left
sub-block is missed, so not every disagreeing index in a
parity-mismatched block is found. -/
theorem c5_counterexample :
    parity (List.replicate 16 0) ≠
      parity [1, 1, 0, 0, 0, 0, 0, 0, 1, 0, 0, 0, 0, 0, 0, 0] ∧
    diffPositions (List.replicate 16 0)
      [1, 1, 0, 0, 0, 0, 0, 0, 1, 0, 0, 0, 0, 0, 0, 0] 0 = [0, 1, 8] ∧
    find_errors_in_block (List.replicate 16 0)
      [1, 1, 0, 0, 0, 0, 0, 0, 1, 0, 0, 0, 0, 0, 0, 0] 0 [] = [8] := by
  refine ⟨by decide, by decide, ?_⟩
  decide

/-- C5, amended: for blocks of length at most 8 — which covers every
block the protocol produces with the standard starting block size 8 —
a parity-mismatched block has every not-yet-corrected disagreeing
index reported.  (Longer blocks can hide even-count mismatches in a
sub-block, found only by a later pass; see the counterexample.) -/
theorem c5_find_errors_complete :
    ∀ (a b : List ℕ) (off : ℕ) (corr : List ℕ),
      a.length = b.length → a.length ≤ 8 → parity a ≠ parity b →
      find_errors_in_block a b off corr =
        (diffPositions a b off).filter fun p => decide (p ∉ corr) :=
  fun a b off corr h1 h2 h3 => find_errors_spec a b off corr h1 h2 (Or.inr h3)

/-- Witness for C5's amended statement: three disagreements in one
8-bit block, all reported. -/
theorem c5_witness :
    find_errors_in_block [0, 0, 0, 0, 0, 0, 0, 0] [1, 1, 1, 0, 0, 0, 0, 0] 0 [] =
      [0, 1, 2] :=
  (c5_find_errors_complete [0, 0, 0, 0, 0, 0, 0, 0] [1, 1, 1, 0, 0, 0, 0, 0] 0 []
    (by decide) (by decide) (by decide)).trans (by decide)

set_option maxRecDepth 100000 in
/-- C1, counterexample: 32-byte keys (256 bits) differing in `e = 2`
positions (bits 0 and 1, both inside the first size-8 block).  Pass 1
sees matching parities everywhere, corrects zero errors and stops
early, so `reconcile_keys` with the standard block size 8 returns
`keys_match = false` and a corrected array different from the
reference — however many passes are configured. -/
theorem c1_counterexample :
    countDiffs (bytesToBits (List.replicate 32 0))
      (bytesToBits (3 :: List.replicate 31 0)) = 2 ∧
    (reconcile_keys (List.replicate 32 0) (3 :: List.replicate 31 0) 8 4).2.2.keys_match
      = false ∧
    (reconcile_keys (List.replicate 32 0) (3 :: List.replicate 31 0) 8 4).2.1 ≠
      (reconcile_keys (List.replicate 32 0) (3 :: List.replicate 31 0) 8 4).1 := by
  refine ⟨by decide, by decide, by decide⟩

/-- C1, amended: for equal-length byte keys whose bit arrays disagree
in at most one position per aligned 8-bit block (per byte) — any
number of such errors in total — `reconcile_keys` with the standard
starting block size 8 and the default 4 passes corrects all of them:
both outputs equal the reference key, every disagreement counted as
corrected, none remaining, `keys_match = true`. -/
theorem c1_cascade_converges (ka kb : List ℕ) (hlen : ka.length = kb.length)
    (hka : ∀ b ∈ ka, b < 256)
    (hblocks : ∀ n, countDiffs (((bytesToBits ka).drop (8 * n)).take 8)
      (((bytesToBits kb).drop (8 * n)).take 8) ≤ 1) :
    reconcile_keys ka kb 8 4 =
      (ka, ka, ⟨countDiffs (bytesToBits ka) (bytesToBits kb), 0, true⟩) := by
  have hla : (bytesToBits ka).length = (bytesToBits kb).length := by
    rw [bytesToBits_length, bytesToBits_length, hlen]
  simp only [reconcile_keys]
  rw [← hla, Nat.min_self, List.take_length, hla, List.take_length]
  rw [run_passes_perblock _ _ hla (bytesToBits_bits01 ka) (bytesToBits_bits01 kb) hblocks]
  rw [countDiffs_self, roundTrip ka hka]
  rfl

/-- Witness for C1's amended statement: two-byte keys differing in one
bit of each byte. -/
theorem c1_witness : reconcile_keys [0, 0] [1, 4] 8 4 = ([0, 0], [0, 0], ⟨2, 0, true⟩) := by
  have h := c1_cascade_converges [0, 0] [1, 4] rfl (by decide) (by
    intro n
    match n with
    | 0 => decide
    | 1 => decide
    | k + 2 =>
        have hdrop : (bytesToBits [0, 0]).drop (8 * (k + 2)) = [] :=
          List.drop_eq_nil_of_le (by rw [bytesToBits_length]; simp; omega)
        rw [hdrop]
        simp [countDiffs_nil_left])
  rw [h]
  decide

/-! ## Claim theorems: LDPC -/

/-- C3: for every LDPC construction (any `k`, `m = n − k`, any random
row positions `pos`, any fallback randomness `rnd`), the generated
matrices satisfy `(G · Hᵀ) mod 2 = 0` in every entry.  Moreover the
in-construction verification always passes (each entry is
`H[i,a] + H[i,a]`), so the fallback derivation of `P` is never taken
and the invariant covers the construction unconditionally. -/
theorem c3_gh_invariant :
    ∀ (k m : ℕ) (pos : Fin m → Finset (Fin k)) (rnd : Fin k → Fin m → ℕ),
      (∀ (a : Fin k) (i : Fin m),
        (∑ j, genG k m (genH k m pos) rnd a j * genH k m pos i j) % 2 = 0) ∧
      genG k m (genH k m pos) rnd = genGmain k m (genH k m pos) := by
  intro k m pos rnd
  refine ⟨?_, genG_eq_main k m pos rnd⟩
  intro a i
  rw [genG_eq_main]
  exact GH_orth k m pos a i

/-- C2: for every message of exactly `k` bits and every LDPC code from
the construction, decoding the encoded codeword with no bit flips
returns the message with `success = true`, for any iteration budget.
`t` models `np.tanh`, assumed only to preserve strict sign (true of
`tanh` and of its float implementation); the initial likelihood signs
match the codeword, every check message reinforces them, so the hard
decision is the codeword at every point the decoder can return. -/
theorem c2_decode_encode_roundtrip :
    ∀ (k m : ℕ) (pos : Fin m → Finset (Fin k)) (rnd : Fin k → Fin m → ℕ)
      (t : ℚ → ℚ), (∀ x, 0 < x → 0 < t x) → (∀ x, x < 0 → t x < 0) →
      ∀ (msg : Fin k → ℕ), (∀ a, msg a ≤ 1) → ∀ maxIter : ℕ,
        decode t k m (genH k m pos)
          (encode k m (genG k m (genH k m pos) rnd) msg) maxIter = (msg, true) := by
  intro k m pos rnd t ht1 ht2 msg hmsg maxIter
  have hc : ∀ j, encode k m (genG k m (genH k m pos) rnd) msg j ≤ 1 :=
    encode_le_one k m _ msg
  have hEven := syndrome_filter_zero k m pos rnd msg hmsg
  have hsynd := syndrome_zero k m pos rnd msg hmsg
  have hinv0 : ∀ j, (encode k m (genG k m (genH k m pos) rnd) msg j = 0 →
      1 ≤ (fun j => if encode k m (genG k m (genH k m pos) rnd) msg j = 0
        then (1 : ℚ) else -1) j) ∧
      (encode k m (genG k m (genH k m pos) rnd) msg j = 1 →
      (fun j => if encode k m (genG k m (genH k m pos) rnd) msg j = 0
        then (1 : ℚ) else -1) j ≤ -1) := by
    intro j
    constructor
    · intro h0; simp [h0]
    · intro h1; simp [h1]
  simp only [decode]
  rw [decodeGo_conv k m t ht1 ht2 pos _ hc hEven hsynd maxIter _ hinv0]
  have hfirst : (fun a => encode k m (genG k m (genH k m pos) rnd) msg (Fin.castAdd m a))
      = msg := funext fun a => encode_castAdd k m pos rnd msg hmsg a
  rw [hfirst]

/-- Witness for C2 on the concrete `(n, k) = (4, 3)` code. -/
theorem c2_witness :
    decode tSign 3 1 (genH 3 1 pos3)
      (encode 3 1 (genG 3 1 (genH 3 1 pos3) rnd0) msg3) 50 = (msg3, true) :=
  c2_decode_encode_roundtrip 3 1 pos3 rnd0 tSign
    (fun x hx => by unfold tSign; rw [if_pos hx]; norm_num)
    (fun x hx => by
      unfold tSign
      rw [if_neg (by linarith), if_pos hx]
      norm_num)
    msg3 (by decide) 50

/-- C4 / code bug: the in-loop convergence test.  On the code
`H = [1 1 1 1]` (`k = 3`, `m = 1`) with the all-zero received word,
after one belief-propagation round every likelihood is
`1 + 2·t(1/2)³ > 0`, so the syndrome of the hard-decision vector is
zero — by the claim, decoding must stop and succeed.  But the code
computes `(H @ var_llrs) % 2` on the real-valued likelihoods (value
`fmod2(4 + 8·t(1/2)³) = 8·t(1/2)³ ≠ 0` whenever `0 < t(1/2) < 1/2`,
which holds for `tanh`), so the test fails and the loop keeps
iterating.  The hypotheses on `t` are the only `tanh` facts used. -/
theorem c4_syndrome_on_floats :
    ∀ t : ℚ → ℚ, 0 < t (1 / 2) → t (1 / 2) < 1 / 2 →
      (∀ i, (∑ j, H3 i j * hardDec (3 + 1) (varUpdate t 3 1 H3 llrs0) j) % 2 = 0) ∧
      ¬ (∀ i : Fin 1, fmod2 (∑ j, (H3 i j : ℚ) * varUpdate t 3 1 H3 llrs0 j) = 0) ∧
      (∀ fuel : ℕ, decodeGo t 3 1 H3 (fuel + 1) llrs0 =
        decodeGo t 3 1 H3 fuel (varUpdate t 3 1 H3 llrs0)) := by
  intro t h1 h2
  have hH : ∀ (i : Fin 1) (j : Fin (3 + 1)), H3 i j = 1 := by decide
  have hvar : ∀ j, varUpdate t 3 1 H3 llrs0 j = 1 + 2 * t (1 / 2) ^ 3 := by
    intro j
    unfold varUpdate
    have hfilt : (Finset.univ.filter fun i : Fin 1 => H3 i j = 1) = Finset.univ :=
      Finset.filter_true_of_mem fun i _ => hH i j
    rw [hfilt, Fin.sum_univ_one]
    have hmsg : checkMsg t 3 1 H3 llrs0 0 j = 2 * t (1 / 2) ^ 3 := by
      unfold checkMsg
      rw [if_pos (hH 0 j)]
      have hOth : (Finset.univ.filter fun j' => j' ≠ j ∧ H3 0 j' = 1) =
          Finset.univ.erase j := by
        ext j'
        simp [Finset.mem_erase, hH]
      rw [hOth]
      have hcard : (Finset.univ.erase j).card = 3 := by
        rw [Finset.card_erase_of_mem (Finset.mem_univ j)]
        simp
      have hne : (Finset.univ.erase j).Nonempty := by
        rw [← Finset.card_pos, hcard]; omega
      rw [if_pos hne]
      have hconst : (∏ j' in Finset.univ.erase j, t (llrs0 j' / 2)) =
          t (1 / 2) ^ 3 := by
        rw [Finset.prod_congr rfl fun j' _ => by
          rw [show llrs0 j' = 1 from rfl]]
        rw [Finset.prod_const, hcard]
      rw [hconst]
    rw [hmsg]
    rfl
  have h3pos : 0 < t (1 / 2) ^ 3 := pow_pos h1 3
  have h3lt : t (1 / 2) ^ 3 < 1 / 8 := by
    calc t (1 / 2) ^ 3 < (1 / 2 : ℚ) ^ 3 := by
          exact pow_lt_pow_left₀ h2 (le_of_lt h1) (by omega)
      _ = 1 / 8 := by norm_num
  have hvpos : ∀ j, 0 < varUpdate t 3 1 H3 llrs0 j := by
    intro j; rw [hvar]; linarith
  have hB : ∀ i, (∑ j, H3 i j * hardDec (3 + 1) (varUpdate t 3 1 H3 llrs0) j) % 2 = 0 := by
    intro i
    have hzero : ∀ j, hardDec (3 + 1) (varUpdate t 3 1 H3 llrs0) j = 0 := by
      intro j
      unfold hardDec
      rw [if_neg (not_lt.mpr (le_of_lt (hvpos j)))]
    rw [Finset.sum_congr rfl fun j _ => by rw [hzero j, Nat.mul_zero]]
    simp
  have hC : ¬ (∀ i : Fin 1, fmod2 (∑ j, (H3 i j : ℚ) * varUpdate t 3 1 H3 llrs0 j) = 0) := by
    intro hcontra
    have h0 := hcontra 0
    have hsum : (∑ j, (H3 0 j : ℚ) * varUpdate t 3 1 H3 llrs0 j) =
        4 + 8 * t (1 / 2) ^ 3 := by
      rw [Finset.sum_congr rfl fun j _ => by
        rw [hH 0 j, hvar j, Nat.cast_one, one_mul]]
      rw [Fin.sum_univ_four]
      ring
    rw [hsum] at h0
    have hfloor : ⌊(4 + 8 * t (1 / 2) ^ 3 : ℚ) / 2⌋ = 2 := by
      have hdiv : (4 + 8 * t (1 / 2) ^ 3 : ℚ) / 2 = 2 + 4 * t (1 / 2) ^ 3 := by ring
      rw [hdiv]
      rw [Int.floor_eq_iff]
      constructor
      · push_cast; linarith
      · push_cast; linarith
    unfold fmod2 at h0
    rw [hfloor] at h0
    have : (8 : ℚ) * t (1 / 2) ^ 3 = 0 := by push_cast at h0; linarith
    linarith
  refine ⟨hB, hC, ?_⟩
  intro fuel
  simp only [decodeGo]
  rw [if_neg hC]

/-- Witness for C4's divergence at a concrete `t`. -/
theorem c4_witness :
    (∀ i, (∑ j, H3 i j * hardDec (3 + 1) (varUpdate tQuarter 3 1 H3 llrs0) j) % 2 = 0) ∧
    ¬ (∀ i : Fin 1, fmod2 (∑ j, (H3 i j : ℚ) * varUpdate tQuarter 3 1 H3 llrs0 j) = 0) ∧
    (∀ fuel : ℕ, decodeGo tQuarter 3 1 H3 (fuel + 1) llrs0 =
      decodeGo tQuarter 3 1 H3 fuel (varUpdate tQuarter 3 1 H3 llrs0)) :=
  c4_syndrome_on_floats tQuarter (by norm_num [tQuarter]) (by norm_num [tQuarter])

/-- `find_paths` touches only the path cache: node records (and their
key stores) and the distributed-key store are untouched. -/
lemma find_paths_state (st : NetState) (s d : String) (h : ℕ) :
    (find_paths st s d h).1.nodes = st.nodes ∧
    (find_paths st s d h).1.distributed_keys = st.distributed_keys := by
  unfold find_paths
  by_cases hguard : (lookupA st.nodes s).isNone ∨ (lookupA st.nodes d).isNone
  · rw [if_pos hguard]
    exact ⟨rfl, rfl⟩
  · rw [if_neg hguard]
    cases hc : lookupA st.path_cache (s, d) with
    | some cached => exact ⟨rfl, rfl⟩
    | none => exact ⟨rfl, rfl⟩

/-- C8, counterexample: the code defines no `NoPathError` or
`InvalidPathError` (no exception is raised anywhere on these paths);
both failure modes return normally with the same value
`(False, None, [])`, so the two failures are not signalled by distinct
errors as claimed.  The first call finds no path; the second is given
an explicit path whose hop has no link (and hence no shared
secret). -/
theorem c8_counterexample :
    (distribute_key stAB "A" "B" [7] "s1" none 0 3600 hk0).2 = (false, none, []) ∧
    validate_path stAB ["A", "B"] = false ∧
    (distribute_key stAB "A" "B" [7] "s2" (some ["A", "B"]) 0 3600 hk0).2 =
      (false, none, []) ∧
    (distribute_key stAB "A" "B" [7] "s1" none 0 3600 hk0).2 =
      (distribute_key stAB "A" "B" [7] "s2" (some ["A", "B"]) 0 3600 hk0).2 := by
  refine ⟨by decide, by decide, by decide, by decide⟩

/-- C8, amended: both failure modes signal failure by returning
`(False, None, [])` — no path found (with no preferred path), and a
preferred path failing validation — and any failed `distribute_key`
leaves every node's key store and the distributed-key store unchanged
(no partial relay; validation precedes relaying). -/
theorem c8_failure_semantics :
    ∀ (st : NetState) (s d : String) (key : List ℕ) (sid : String)
      (pp : Option (List String)) (now ttl : ℕ) (hk : String → String → ℕ → List ℕ),
      (pp = none → (find_paths st s d 5).2 = [] →
        distribute_key st s d key sid pp now ttl hk =
          ((find_paths st s d 5).1, (false, none, []))) ∧
      (∀ p, pp = some p → validate_path st p = false →
        distribute_key st s d key sid pp now ttl hk = (st, (false, none, []))) ∧
      ((distribute_key st s d key sid pp now ttl hk).2.1 = false →
        (distribute_key st s d key sid pp now ttl hk).2 = (false, none, []) ∧
        (distribute_key st s d key sid pp now ttl hk).1.nodes = st.nodes ∧
        (distribute_key st s d key sid pp now ttl hk).1.distributed_keys =
          st.distributed_keys) := by
  intro st s d key sid pp now ttl hk
  refine ⟨?_, ?_, ?_⟩
  · intro hpp hempty
    subst hpp
    by_cases hguard : (lookupA st.nodes s).isNone ∨ (lookupA st.nodes d).isNone
    · have hfp : find_paths st s d 5 = (st, []) := by
        unfold find_paths; rw [if_pos hguard]
      unfold distribute_key
      rw [if_pos hguard, hfp]
    · unfold distribute_key
      rw [if_neg hguard]
      simp only [hempty]
  · intro p hpp hval
    subst hpp
    by_cases hguard : (lookupA st.nodes s).isNone ∨ (lookupA st.nodes d).isNone
    · unfold distribute_key
      rw [if_pos hguard]
    · unfold distribute_key
      rw [if_neg hguard]
      simp only [hval, if_pos]
  · intro hflag
    by_cases hguard : (lookupA st.nodes s).isNone ∨ (lookupA st.nodes d).isNone
    · have hres : distribute_key st s d key sid pp now ttl hk = (st, (false, none, [])) := by
        unfold distribute_key; rw [if_pos hguard]
      rw [hres]
      exact ⟨rfl, rfl, rfl⟩
    · cases hpp : pp with
      | some p =>
          rw [hpp] at hflag
          cases hvb : validate_path st p with
          | false =>
              have hres : distribute_key st s d key sid (some p) now ttl hk =
                  (st, (false, none, [])) := by
                unfold distribute_key
                rw [if_neg hguard]
                simp only [hvb, if_pos]
              rw [hres]
              exact ⟨rfl, rfl, rfl⟩
          | true =>
              exfalso
              have hres2 : (distribute_key st s d key sid (some p) now ttl hk).2.1 = true := by
                unfold distribute_key
                rw [if_neg hguard]
                simp only [hvb]
                rw [if_neg (fun hc => Bool.noConfusion hc)]
              rw [hflag] at hres2
              exact Bool.false_ne_true hres2
      | none =>
          rw [hpp] at hflag
          cases hfp : (find_paths st s d 5).2 with
          | nil =>
              have hres : distribute_key st s d key sid none now ttl hk =
                  ((find_paths st s d 5).1, (false, none, [])) := by
                unfold distribute_key
                rw [if_neg hguard]
                simp only [hfp]
              rw [hres]
              have hfps := find_paths_state st s d 5
              exact ⟨rfl, hfps.1, hfps.2⟩
          | cons best restPaths =>
              cases hvb : validate_path (find_paths st s d 5).1 best.path with
              | false =>
                  have hres : distribute_key st s d key sid none now ttl hk =
                      ((find_paths st s d 5).1, (false, none, [])) := by
                    unfold distribute_key
                    rw [if_neg hguard]
                    simp only [hfp, hvb, if_pos]
                  rw [hres]
                  have hfps := find_paths_state st s d 5
                  exact ⟨rfl, hfps.1, hfps.2⟩
              | true =>
                  exfalso
                  have hres2 : (distribute_key st s d key sid none now ttl hk).2.1 = true := by
                    unfold distribute_key
                    rw [if_neg hguard]
                    simp only [hfp, hvb]
                    rw [if_neg (fun hc => Bool.noConfusion hc)]
                  rw [hflag] at hres2
                  exact Bool.false_ne_true hres2

/-- Witness for C8's amended statement on the concrete two-node
topology: both failure modes, with hypotheses discharged
concretely. -/
theorem c8_witness :
    distribute_key stAB "A" "B" [7] "s1" none 0 3600 hk0 =
        ((find_paths stAB "A" "B" 5).1, (false, none, [])) ∧
    distribute_key stAB "A" "B" [7] "s2" (some ["A", "B"]) 0 3600 hk0 =
        (stAB, (false, none, [])) :=
  ⟨(c8_failure_semantics stAB "A" "B" [7] "s1" none 0 3600 hk0).1 rfl (by decide),
   (c8_failure_semantics stAB "A" "B" [7] "s2" (some ["A", "B"]) 0 3600 hk0).2.1
     ["A", "B"] rfl (by decide)⟩

/-- C9 / code bug: `add_link` (and `add_node`) never invalidate
`path_cache`, so after the topology gains the links A—B and B—C,
`find_paths` still returns the stale single-path cache entry
`[A, C]`, although the path enumeration over the mutated topology
finds the new simple path `[A, B, C]` as well. -/
theorem c9_stale_cache :
    (find_paths stMut "A" "C" 5).2.map NetPath.path = [["A", "C"]] ∧
    step1.2.map NetPath.path = [["A", "C"]] ∧
    simplePathsGo stMut.edges "C" 5 "A" ["A"] = [["A", "C"], ["A", "B", "C"]] ∧
    (find_paths stMut "A" "C" 5).2.map NetPath.path ≠
      simplePathsGo stMut.edges "C" 5 "A" ["A"] := by
  refine ⟨by decide, by decide, by decide, by decide⟩

end SW

